import Mathlib

/-!
Verification development for inject_protovalidate.py: a tool that reads
Smithy source schemas, resolves length/range/uniqueItems constraints
through alias and member passes, and patches .proto files with
buf.validate field options.  Python text is modelled on lists of
characters; regular-expression matching is rendered as deterministic
scanners that follow the backtracking behaviour of the patterns used in
the script.
-/

set_option maxHeartbeats 1000000

/-- Text is modelled as a list of characters, matching Python strings. -/
abbrev Text := List Char

/-- Python regex word character, ASCII subset. -/
def isWordChar (c : Char) : Bool := c.isAlphanum || c == '_'

/-- Python regex whitespace character, ASCII subset. -/
def isSpaceChar (c : Char) : Bool :=
  c == ' ' || c == '\t' || c == '\n' || c == '\r' || c == '\x0B' || c == '\x0C'

/-- Greedy run of characters satisfying p, with the remainder. -/
def spanP (p : Char → Bool) (t : Text) : Text × Text :=
  (t.takeWhile p, t.dropWhile p)

/-- Case-insensitive literal match of a lowercase pattern, as a line head. -/
def ciPfx : Text → Text → Bool
  | [], _ => true
  | _ :: _, [] => false
  | p :: ps, c :: cs => (c.toLower == p) && ciPfx ps cs

/-- Substring test, modelling the Python `in` operator on strings. -/
def hasSub (needle : Text) : Text → Bool
  | [] => needle.isEmpty
  | c :: rest => needle.isPrefixOf (c :: rest) || hasSub needle rest

/-- Python str.strip with no argument: whitespace removed at both ends. -/
def stripWs (t : Text) : Text :=
  ((t.dropWhile isSpaceChar).reverse.dropWhile isSpaceChar).reverse

/-- Python rstrip applied with the single character `;`. -/
def rstripSemi (t : Text) : Text :=
  (t.reverse.dropWhile (fun c => c == ';')).reverse

/-- Paren character for Python strip with the two parenthesis characters. -/
def isParenChar (c : Char) : Bool := c == '(' || c == ')'

/-- Python str.strip applied with the two parenthesis characters. -/
def stripParens (t : Text) : Text :=
  ((t.dropWhile isParenChar).reverse.dropWhile isParenChar).reverse

/-- Python truthiness of an optional string: set and non-empty. -/
def textTruthy : Option Text → Bool
  | none => false
  | some s => !s.isEmpty

/-- Python `b or a` on optional strings: b when truthy, else a. -/
def pyOr (b a : Option Text) : Option Text := if textTruthy b then b else a

/-- Constraint value of the script: the Constraints dataclass. -/
structure Constraints where
  str_min : Option Text := none
  str_max : Option Text := none
  num_min : Option Text := none
  num_max : Option Text := none
  rep_min : Option Text := none
  rep_max : Option Text := none
  unique : Bool := false
deriving DecidableEq

/-- Constraints.merge from the script: each optional bound is
`other.field or self.field`; unique is `self.unique or other.unique`. -/
def Constraints.merge (self other : Constraints) : Constraints where
  str_min := pyOr other.str_min self.str_min
  str_max := pyOr other.str_max self.str_max
  num_min := pyOr other.num_min self.num_min
  num_max := pyOr other.num_max self.num_max
  rep_min := pyOr other.rep_min self.rep_min
  rep_max := pyOr other.rep_max self.rep_max
  unique := self.unique || other.unique

/-- Constraints truthiness from the script: any bound truthy or unique. -/
def Constraints.pyBool (c : Constraints) : Bool :=
  textTruthy c.str_min || textTruthy c.str_max ||
  textTruthy c.num_min || textTruthy c.num_max ||
  textTruthy c.rep_min || textTruthy c.rep_max || c.unique

/-- Numeric literal scanner anchored at the head of the text, for the
pattern minus-sign optional, digits, optional dot and digits; greedy. -/
def numParse (t : Text) : Option Text :=
  let sr : Text × Text := match t with
    | '-' :: r => (['-'], r)
    | _ => ([], t)
  let (dg, r1) := spanP Char.isDigit sr.2
  if dg.isEmpty then none
  else match r1 with
    | '.' :: r2 =>
      let (dg2, _) := spanP Char.isDigit r2
      if dg2.isEmpty then some (sr.1 ++ dg) else some (sr.1 ++ dg ++ '.' :: dg2)
    | _ => some (sr.1 ++ dg)

/-- One step of the search in `_pick`: at the current position, require a
word boundary, the key, optional spaces, a colon, optional spaces, and a
numeric literal. -/
def pickHere (key : Text) (prev : Option Char) (t : Text) : Option Text :=
  let bOk := match prev with
    | none => true
    | some c => !isWordChar c
  if bOk && key.isPrefixOf t then
    match (t.drop key.length).dropWhile isSpaceChar with
    | ':' :: r2 => numParse (r2.dropWhile isSpaceChar)
    | _ => none
  else none

/-- Left-to-right search over all positions, modelling re.search for the
pattern used by `_pick`. -/
def pickScan (key : Text) : Nat → Option Char → Text → Option Text
  | 0, _, _ => none
  | fuel + 1, prev, t =>
    match pickHere key prev t with
    | some v => some v
    | none =>
      match t with
      | [] => none
      | c :: rest => pickScan key fuel (some c) rest

/-- `_pick` from the script: first match of the key-colon-number pattern. -/
def pick (blob : Text) (key : Text) : Option Text :=
  pickScan key (blob.length + 1) none blob

/-- findall for the trait pattern: an at-sign, word characters, then a run
of characters that are not an at-sign or a brace; non-overlapping,
left to right. -/
def traitScan : Nat → Text → List Text
  | 0, _ => []
  | fuel + 1, t =>
    match t with
    | [] => []
    | '@' :: r =>
      let (w, r1) := spanP isWordChar r
      if w.isEmpty then traitScan fuel r
      else
        let (body, r2) := spanP (fun c => !(c == '@' || c == '\x7b' || c == '\x7d')) r1
        ('@' :: (w ++ body)) :: traitScan fuel r2
    | _ :: r => traitScan fuel r

/-- Processing of one found trait inside gather_constraints: the three
recognised trait heads update the constraint in place, Python-or style. -/
def applyTrait (c : Constraints) (trait : Text) : Constraints :=
  if ("@length").data.isPrefixOf trait then
    let inner := stripParens (trait.drop 8)
    let mn := pick inner ("min").data
    let mx := pick inner ("max").data
    { c with
      str_min := pyOr mn c.str_min
      str_max := pyOr mx c.str_max
      rep_min := pyOr mn c.rep_min
      rep_max := pyOr mx c.rep_max }
  else if ("@range").data.isPrefixOf trait then
    { c with
      num_min := pyOr (pick (stripParens (trait.drop 7)) ("min").data) c.num_min
      num_max := pyOr (pick (stripParens (trait.drop 7)) ("max").data) c.num_max }
  else if ("@uniqueItems").data.isPrefixOf trait then
    { c with unique := true }
  else c

/-- gather_constraints from the script: fold the trait updates over every
trait found in the span. -/
def gather_constraints (span : Text) : Constraints :=
  (traitScan (span.length + 1) span).foldl applyTrait {}

example : gather_constraints ("@length(min: 1, max: 100)").data =
    { str_min := some ['1'], str_max := some ['1', '0', '0'],
      rep_min := some ['1'], rep_max := some ['1', '0', '0'] } := by decide

example : gather_constraints ("@range(min: -40, max: 150)").data =
    { num_min := some ['-', '4', '0'], num_max := some ['1', '5', '0'] } := by decide

example : gather_constraints ("@uniqueItems").data = { unique := true } := by decide

/-- Member resolution step of pass 2: the direct member constraint, merged
over the alias constraint as base when the target type is a known alias. -/
def resolveMember (aliasC : Option Constraints) (direct : Constraints) : Constraints :=
  match aliasC with
  | some a => a.merge direct
  | none => direct

/-- One conditional attribute of build_option: appended when the optional
value is truthy, with the key text already carrying the equals sign. -/
def optAttr (key : Text) : Option Text → List Text
  | some v => if v.isEmpty then [] else [key ++ v]
  | none => []

/-- Attribute list assembled by build_option, before formatting: branch on
the repeated flag first, then on the string type, else numeric category. -/
def build_attrs (ftype : Text) (repeated : Bool) (c : Constraints) : List Text :=
  if repeated then
    optAttr ("repeated.min_items = ").data c.rep_min ++
    optAttr ("repeated.max_items = ").data c.rep_max ++
    (if c.unique then [("repeated.unique = true").data] else [])
  else if ftype == ("string").data then
    optAttr ("string.min_len = ").data c.str_min ++
    optAttr ("string.max_len = ").data c.str_max
  else
    let cat :=
      if ftype == ("double").data then ("double").data
      else if ftype == ("float").data then ("float").data
      else if ("64").data.isSuffixOf ftype then ("int64").data
      else ("int32").data
    optAttr (cat ++ (".gte = ").data) c.num_min ++
    optAttr (cat ++ (".lte = ").data) c.num_max

/-- Python replace of the two-character text of two open parens by one
open paren, left to right, non-overlapping. -/
def replaceDD : Text → Text
  | [] => []
  | [c] => [c]
  | c :: d :: r =>
    if c == '(' && d == '(' then '(' :: replaceDD r
    else c :: replaceDD (d :: r)

/-- Python str.join over a separator. -/
def joinSep (sep : Text) : List Text → Text
  | [] => []
  | [a] => a
  | a :: b :: rest => a ++ sep ++ joinSep sep (b :: rest)

/-- Qualifier prefix applied to each attribute in the multi-line form. -/
def fieldPre : Text := ("(buf.validate.field).").data

/-- Formatting tail of build_option: empty on no attributes, the inline
bracketed form for one attribute, the multi-line form for several. -/
def formatAttrs : List Text → Text
  | [] => []
  | [a] => replaceDD ((" [((buf.validate.field).").data ++ a ++ (")]").data)
  | a :: b :: rest =>
    (" [\n  ").data ++
      joinSep ((",\n  ").data) ((a :: b :: rest).map (fun x => fieldPre ++ x)) ++
      ("\n]").data

/-- build_option from the script: the attribute list, formatted. -/
def build_option (ftype : Text) (repeated : Bool) (c : Constraints) : Text :=
  formatAttrs (build_attrs ftype repeated c)

example : build_option ("string").data false
    { str_min := some ['1'], str_max := some ['1', '0', '0'] } =
    (" [\n  (buf.validate.field).string.min_len = 1,\n  (buf.validate.field).string.max_len = 100\n]").data := by
  decide

example : build_option ("int32").data false { num_min := some ['2'] } =
    (" [(buf.validate.field).int32.gte = 2)]").data := by decide

/-- Scanner for the tag and tail end of the field pattern: digits, then a
run of characters other than the semicolon, then a semicolon. -/
def parseTagTail (t : Text) : Option (Text × Text) :=
  let (dg, r1) := spanP Char.isDigit t
  if dg.isEmpty then none
  else
    let (tl, r2) := spanP (fun c => !(c == ';')) r1
    match r2 with
    | ';' :: _ => some (dg, tl)
    | _ => none

/-- Scanner for the field pattern after the optional label group: word,
spaces, word, optional spaces, equals, optional spaces, tag and tail. -/
def parseFromType (t : Text) : Option (Text × Text × Text × Text) :=
  let (ty, r1) := spanP isWordChar t
  if ty.isEmpty then none
  else
    let (ws1, r2) := spanP isSpaceChar r1
    if ws1.isEmpty then none
    else
      let (nm, r3) := spanP isWordChar r2
      if nm.isEmpty then none
      else
        match r3.dropWhile isSpaceChar with
        | '=' :: r5 =>
          match parseTagTail (r5.dropWhile isSpaceChar) with
          | some (tg, tl) => some (ty, nm, tg, tl)
          | none => none
        | _ => none

/-- Label keyword attempt for the optional group of the field pattern:
the keyword case-insensitively, then at least one space; the captured
group text keeps the original spelling and the trailing spaces. -/
def tryKw (kw : Text) (t : Text) : Option (Text × Text) :=
  if ciPfx kw t then
    let r := t.drop kw.length
    let (ws, r2) := spanP isSpaceChar r
    if ws.isEmpty then none else some (t.take kw.length ++ ws, r2)
  else none

/-- Result of a field-line match: the five groups of the field pattern. -/
structure FieldM where
  rep_kw : Option Text
  ftype : Text
  fname : Text
  tag : Text
  tail : Text
deriving DecidableEq

/-- Match of the field pattern against a line, following the backtracking
of the optional label group: the labelled arms are tried first and the
plain arm is the fallback. -/
def fieldMatch (line : Text) : Option FieldM :=
  let body := line.dropWhile isSpaceChar
  let plainArm : Option FieldM :=
    match parseFromType body with
    | some (ty, nm, tg, tl) => some ⟨none, ty, nm, tg, tl⟩
    | none => none
  let labelArm : Option FieldM :=
    match tryKw ("repeated").data body with
    | some (g, rest) =>
      match parseFromType rest with
      | some (ty, nm, tg, tl) => some ⟨some g, ty, nm, tg, tl⟩
      | none => none
    | none =>
      match tryKw ("optional").data body with
      | some (g, rest) =>
        match parseFromType rest with
        | some (ty, nm, tg, tl) => some ⟨some g, ty, nm, tg, tl⟩
        | none => none
      | none => none
  match labelArm with
  | some m => some m
  | none => plainArm

/-- Repetition flag computed by the patcher from a field match. -/
def isRep (m : FieldM) : Bool :=
  stripWs (m.rep_kw.getD []) == ("repeated").data

/-- Match of the message pattern against a line: optional spaces, the word
message case-insensitively, spaces, a name, optional spaces, a brace. -/
def msgMatch (line : Text) : Option Text :=
  let b := line.dropWhile isSpaceChar
  if ciPfx ("message").data b then
    let (ws, r2) := spanP isSpaceChar (b.drop 7)
    if ws.isEmpty then none
    else
      let (nm, r3) := spanP isWordChar r2
      if nm.isEmpty then none
      else
        match r3.dropWhile isSpaceChar with
        | '\x7b' :: _ => some nm
        | _ => none
  else none

/-- Canonical import line written by the script. -/
def importLiteral : Text := ("import \"buf/validate/validate.proto\";").data

/-- Full match of the import pattern against a line: optional spaces, the
word import, spaces, then exactly the quoted path and semicolon. -/
def importFullmatch (line : Text) : Bool :=
  let b := line.dropWhile isSpaceChar
  if ("import").data.isPrefixOf b then
    let (ws, r2) := spanP isSpaceChar (b.drop 6)
    !ws.isEmpty && r2 == ("\"buf/validate/validate.proto\";").data
  else false

/-- Marker text whose presence in the matched tail suppresses a rewrite. -/
def markerText : Text := ("buf.validate.field").data

/-- Result of processing one line of a proto file. -/
structure PatchOut where
  ctx : Option Text
  line : Text
  patched : Bool
deriving DecidableEq

/-- Processing of one line by the patch loop: message lines update the
context; a matched field line inside a message is rewritten when the
marker is absent from its tail, the member lookup is truthy, and the
synthesized option is non-empty. -/
def patchLine (mc : Text → Text → Option Constraints) (ctx : Option Text)
    (line : Text) : PatchOut :=
  match msgMatch line with
  | some nm => ⟨some nm, line, false⟩
  | none =>
    match ctx, fieldMatch line with
    | some c, some m =>
      if hasSub markerText m.tail then ⟨ctx, line, false⟩
      else
        match mc c m.fname with
        | none => ⟨ctx, line, false⟩
        | some cons =>
          if !cons.pyBool then ⟨ctx, line, false⟩
          else
            let opt := build_option m.ftype (isRep m) cons
            if opt.isEmpty then ⟨ctx, line, false⟩
            else ⟨ctx, rstripSemi line ++ opt ++ [';'], true⟩
    | _, _ => ⟨ctx, line, false⟩

/-- Line pass of the patcher over a whole file, threading the message
context and accumulating the dirty flag. -/
def patchPass (mc : Text → Text → Option Constraints) :
    Option Text → List Text → List Text × Bool
  | _, [] => ([], false)
  | ctx, l :: ls =>
    let r := patchLine mc ctx l
    let rest := patchPass mc r.ctx ls
    (r.line :: rest.1, r.patched || rest.2)

/-- Deduplication of import lines: the first full match is replaced by the
canonical literal and every later full match is deleted. -/
def dedupeImports : List Text → List Text
  | [] => []
  | l :: ls =>
    if importFullmatch l then
      importLiteral :: ls.filter (fun x => !importFullmatch x)
    else l :: dedupeImports ls

/-- Python list.insert, which clamps the index to the list length. -/
def insertAtPos (n : Nat) (x : Text) (ls : List Text) : List Text :=
  ls.take n ++ x :: ls.drop n

/-- Import normalisation after the line pass: deduplicate when any import
line exists; otherwise, when the file is dirty, insert the canonical line
at index two under the header heuristic and at index one otherwise. -/
def normaliseImports (dirty : Bool) (ls : List Text) : List Text :=
  if ls.any importFullmatch then dedupeImports ls
  else if dirty then
    let headerOk : Bool := match ls with
      | a :: b :: _ => ("syntax").data.isPrefixOf a && ("package").data.isPrefixOf b
      | _ => false
    insertAtPos (if headerOk then 2 else 1) importLiteral ls
  else ls

/-- Whole-file transformation of the patcher: the line pass, then import
normalisation driven by the dirty flag. -/
def patchFile (mc : Text → Text → Option Constraints) (ls : List Text) : List Text :=
  let p := patchPass mc none ls
  normaliseImports p.2 p.1

example : fieldMatch ("  string content = 1;").data =
    some ⟨none, ("string").data, ("content").data, ['1'], []⟩ := by decide

example : fieldMatch ("  repeated string ids = 1;").data =
    some ⟨some ("repeated ").data, ("string").data, ("ids").data, ['1'], []⟩ := by decide

example : msgMatch ("message Msg \x7b").data = some ("Msg").data := by decide

example : importFullmatch ("  import \"buf/validate/validate.proto\";").data = true := by decide

/-- Attempt to match the string-alias pattern at the current position: a
word boundary, the word string case-insensitively, spaces, then the alias
name; returns the consumed text and the name. -/
def saHere (prev : Option Char) (t : Text) : Option (Text × Text × Text) :=
  let bOk := match prev with
    | none => true
    | some c => !isWordChar c
  if bOk && ciPfx ("string").data t then
    let ws := (t.drop 6).takeWhile isSpaceChar
    let r2 := (t.drop 6).dropWhile isSpaceChar
    let nm := r2.takeWhile isWordChar
    let r3 := r2.dropWhile isWordChar
    if ws.isEmpty then none
    else if nm.isEmpty then none
    else some (t.take 6 ++ ws ++ nm, nm, r3)
  else none

/-- finditer for the string-alias pattern: pre is the text already passed
over, so each hit reports the entire file text before the match. -/
def saScan : Nat → Text → Option Char → Text → List (Text × Text)
  | 0, _, _, _ => []
  | fuel + 1, pre, prev, t =>
    match t with
    | [] => []
    | c :: rest =>
      match saHere prev t with
      | some (consumed, nm, r3) =>
        (pre, nm) :: saScan fuel (pre ++ consumed) (consumed.getLast? ) r3
      | none => saScan fuel (pre ++ [c]) (some c) rest

/-- All string-alias matches of a file, paired with the full text before
each match. -/
def stringAliasEntries (txt : Text) : List (Text × Text) :=
  saScan (txt.length + 1) [] none txt

/-- Pass 1 entries for string aliases: each stored constraint is the trait
extraction over the text from the file start to the match. -/
def aliasMapS (txt : Text) : List (Text × Constraints) :=
  (stringAliasEntries txt).map (fun e => (e.2, gather_constraints e.1))

/-- Dictionary lookup where a later binding for a key overwrites an
earlier one, as in the Python dict built by pass 1. -/
def lookupLast (l : List (Text × Constraints)) (k : Text) : Option Constraints :=
  ((l.filter (fun e => e.1 == k)).getLast?).map (fun e => e.2)

example : stringAliasEntries ("@length(min: 3)\nstring A\n\nstring B\n").data =
    [(("@length(min: 3)\n").data, ['A']),
     (("@length(min: 3)\nstring A\n\n").data, ['B'])] := by decide

example : lookupLast (aliasMapS ("@length(min: 3)\nstring A\n\nstring B\n").data) ['B'] =
    some { str_min := some ['3'], rep_min := some ['3'] } := by decide

/-- Optional bound with no empty-text value. -/
def optNE : Option Text → Bool
  | none => true
  | some s => !s.isEmpty

/-- Constraint value whose six optional bounds carry no empty text, as is
the case for every value the trait extractor produces. -/
def noEmptyVals (c : Constraints) : Bool :=
  optNE c.str_min && optNE c.str_max && optNE c.num_min &&
  optNE c.num_max && optNE c.rep_min && optNE c.rep_max

/-- Character allowed in a numeric-literal bound value. -/
def numChar (ch : Char) : Bool := ch.isDigit || ch == '.' || ch == '-'

/-- Optional bound whose value, when set, is non-empty numeric-literal
text, the shape every extracted bound has. -/
def plainVal : Option Text → Bool
  | none => true
  | some s => !s.isEmpty && s.all numChar

/-- Constraint value with all bounds in numeric-literal shape. -/
def validC (c : Constraints) : Bool :=
  plainVal c.str_min && plainVal c.str_max && plainVal c.num_min &&
  plainVal c.num_max && plainVal c.rep_min && plainVal c.rep_max

lemma pyOr_of_optNE (a : Option Text) {b : Option Text} (hb : optNE b = true) :
    pyOr b a = if b.isSome then b else a := by
  cases b with
  | none => rfl
  | some s =>
    simp only [optNE] at hb
    simp [pyOr, textTruthy, hb]

lemma validC_noEmpty {c : Constraints} (h : validC c = true) : noEmptyVals c = true := by
  simp only [validC, Bool.and_eq_true] at h
  obtain ⟨⟨⟨⟨⟨h1, h2⟩, h3⟩, h4⟩, h5⟩, h6⟩ := h
  have conv : ∀ o : Option Text, plainVal o = true → optNE o = true := by
    intro o ho
    cases o with
    | none => rfl
    | some s => simp only [plainVal, Bool.and_eq_true] at ho; simpa [optNE] using ho.1
  simp [noEmptyVals, conv _ h1, conv _ h2, conv _ h3, conv _ h4, conv _ h5, conv _ h6]

/-- C2: merging A with B gives, on each optional bound field, the value of
B when the field of B is present and the value of A otherwise, and unique
is the logical or; hence with a known alias as base, a bound declared
directly on the member overrides the alias bound whenever set. -/
theorem merge_right_biased_direct_overrides :
    (∀ A B : Constraints, noEmptyVals B = true →
      ((A.merge B).str_min = if B.str_min.isSome then B.str_min else A.str_min) ∧
      ((A.merge B).str_max = if B.str_max.isSome then B.str_max else A.str_max) ∧
      ((A.merge B).num_min = if B.num_min.isSome then B.num_min else A.num_min) ∧
      ((A.merge B).num_max = if B.num_max.isSome then B.num_max else A.num_max) ∧
      ((A.merge B).rep_min = if B.rep_min.isSome then B.rep_min else A.rep_min) ∧
      ((A.merge B).rep_max = if B.rep_max.isSome then B.rep_max else A.rep_max) ∧
      ((A.merge B).unique = (A.unique || B.unique))) ∧
    (∀ al d : Constraints, noEmptyVals d = true →
      (∀ v, d.str_min = some v → (resolveMember (some al) d).str_min = some v) ∧
      (∀ v, d.str_max = some v → (resolveMember (some al) d).str_max = some v) ∧
      (∀ v, d.num_min = some v → (resolveMember (some al) d).num_min = some v) ∧
      (∀ v, d.num_max = some v → (resolveMember (some al) d).num_max = some v) ∧
      (∀ v, d.rep_min = some v → (resolveMember (some al) d).rep_min = some v) ∧
      (∀ v, d.rep_max = some v → (resolveMember (some al) d).rep_max = some v)) := by
  have hfields : ∀ A B : Constraints, noEmptyVals B = true →
      optNE B.str_min = true ∧ optNE B.str_max = true ∧ optNE B.num_min = true ∧
      optNE B.num_max = true ∧ optNE B.rep_min = true ∧ optNE B.rep_max = true := by
    intro A B hB
    simp only [noEmptyVals, Bool.and_eq_true] at hB
    obtain ⟨⟨⟨⟨⟨h1, h2⟩, h3⟩, h4⟩, h5⟩, h6⟩ := hB
    exact ⟨h1, h2, h3, h4, h5, h6⟩
  constructor
  · intro A B hB
    obtain ⟨h1, h2, h3, h4, h5, h6⟩ := hfields A B hB
    exact ⟨pyOr_of_optNE _ h1, pyOr_of_optNE _ h2, pyOr_of_optNE _ h3,
      pyOr_of_optNE _ h4, pyOr_of_optNE _ h5, pyOr_of_optNE _ h6, rfl⟩
  · intro al d hd
    obtain ⟨h1, h2, h3, h4, h5, h6⟩ := hfields al d hd
    have step : ∀ (x : Option Text) (a : Option Text), optNE x = true →
        ∀ v, x = some v → pyOr x a = some v := by
      intro x a hx v hv
      subst hv
      rw [pyOr_of_optNE a hx]
      rfl
    exact ⟨fun v hv => step _ _ h1 v hv, fun v hv => step _ _ h2 v hv,
      fun v hv => step _ _ h3 v hv, fun v hv => step _ _ h4 v hv,
      fun v hv => step _ _ h5 v hv, fun v hv => step _ _ h6 v hv⟩

/-- Witness for C2 at concrete constraint values. -/
theorem merge_right_biased_direct_overrides_witness :
    ((({ str_min := some ['7'] } : Constraints).merge { str_min := some ['2'] }).str_min =
      if (some ['2'] : Option Text).isSome then some ['2'] else some ['7']) ∧
    ((resolveMember (some { rep_min := some ['9'] }) { rep_min := some ['4'] }).rep_min =
      some ['4']) := by
  refine ⟨(merge_right_biased_direct_overrides.1 { str_min := some ['7'] }
    { str_min := some ['2'] } (by decide)).1, ?_⟩
  exact (merge_right_biased_direct_overrides.2 { rep_min := some ['9'] }
    { rep_min := some ['4'] } (by decide)).2.2.2.2.1 ['4'] rfl

/-- Equality of the string bounds with the repeated bounds. -/
def eqSR (c : Constraints) : Prop :=
  c.str_min = c.rep_min ∧ c.str_max = c.rep_max

instance (c : Constraints) : Decidable (eqSR c) :=
  inferInstanceAs (Decidable (c.str_min = c.rep_min ∧ c.str_max = c.rep_max))

lemma eqSR_applyTrait {c : Constraints} (h : eqSR c) (tr : Text) :
    eqSR (applyTrait c tr) := by
  obtain ⟨h1, h2⟩ := h
  unfold applyTrait
  split
  · exact ⟨by simp [h1], by simp [h2]⟩
  · split
    · exact ⟨h1, h2⟩
    · split
      · exact ⟨h1, h2⟩
      · exact ⟨h1, h2⟩

lemma eqSR_foldl : ∀ (ts : List Text) (c : Constraints), eqSR c →
    eqSR (ts.foldl applyTrait c)
  | [], _, h => h
  | t :: ts, c, h => eqSR_foldl ts (applyTrait c t) (eqSR_applyTrait h t)

/-- C9: every extractor output has equal string and repeated bounds, merge
preserves that equality, and therefore so do the values stored by the
alias pass and produced by member resolution. -/
theorem extractor_str_rep_equal :
    (∀ span : Text, eqSR (gather_constraints span)) ∧
    (∀ a b : Constraints, eqSR a → eqSR b → eqSR (a.merge b)) ∧
    (∀ txt nm c, (nm, c) ∈ aliasMapS txt → eqSR c) ∧
    (∀ (alC : Option Constraints) (d : Constraints),
      (∀ x, alC = some x → eqSR x) → eqSR d → eqSR (resolveMember alC d)) := by
  have hgather : ∀ span : Text, eqSR (gather_constraints span) := by
    intro span
    exact eqSR_foldl _ _ ⟨rfl, rfl⟩
  have hmerge : ∀ a b : Constraints, eqSR a → eqSR b → eqSR (a.merge b) := by
    intro a b ha hb
    exact ⟨by simp [Constraints.merge, ha.1, hb.1], by simp [Constraints.merge, ha.2, hb.2]⟩
  refine ⟨hgather, hmerge, ?_, ?_⟩
  · intro txt nm c h
    obtain ⟨e, _, heq⟩ := List.mem_map.1 h
    have : c = gather_constraints e.1 := by
      have := congrArg Prod.snd heq
      simpa using this.symm
    rw [this]
    exact hgather e.1
  · intro alC d halC hd
    cases alC with
    | none => exact hd
    | some a => exact hmerge a d (halC a rfl) hd

lemma optAttr_mem {a key : Text} {o : Option Text} (h : a ∈ optAttr key o) :
    ∃ v, o = some v ∧ v ≠ [] ∧ a = key ++ v := by
  cases o with
  | none => simp [optAttr] at h
  | some s =>
    simp only [optAttr] at h
    split at h
    · simp at h
    · simp only [List.mem_singleton] at h
      refine ⟨s, rfl, ?_, h⟩
      intro hs
      simp [hs] at *

/-- C3: in the repeated branch every synthesized attribute is one of the
three repeated-category attributes, and none is a string attribute or a
numeric gte or lte attribute of any of the four categories. -/
theorem repeated_branch_only_repeated_attrs :
    ∀ (ftype : Text) (c : Constraints) (a : Text),
      a ∈ build_attrs ftype true c →
      ((∃ v, a = ("repeated.min_items = ").data ++ v) ∨
       (∃ v, a = ("repeated.max_items = ").data ++ v) ∨
       a = ("repeated.unique = true").data) ∧
      (("string.").data.isPrefixOf a = false ∧
       ("double.").data.isPrefixOf a = false ∧
       ("float.").data.isPrefixOf a = false ∧
       ("int64.").data.isPrefixOf a = false ∧
       ("int32.").data.isPrefixOf a = false) := by
  intro ftype c a h
  simp only [build_attrs, if_true, List.mem_append] at h
  rcases h with (h | h) | h
  · obtain ⟨v, _, _, rfl⟩ := optAttr_mem h
    exact ⟨Or.inl ⟨v, rfl⟩, rfl, rfl, rfl, rfl, rfl⟩
  · obtain ⟨v, _, _, rfl⟩ := optAttr_mem h
    exact ⟨Or.inr (Or.inl ⟨v, rfl⟩), rfl, rfl, rfl, rfl, rfl⟩
  · split at h
    · simp only [List.mem_singleton] at h
      subst h
      exact ⟨Or.inr (Or.inr rfl), rfl, rfl, rfl, rfl, rfl⟩
    · simp at h

/-- Witness for C3 at a repeated field whose constraint also carries
string and numeric bounds, which are all ignored. -/
theorem repeated_branch_only_repeated_attrs_witness :
    (∃ v, ("repeated.min_items = 1").data = ("repeated.min_items = ").data ++ v) ∨
    (∃ v, ("repeated.min_items = 1").data = ("repeated.max_items = ").data ++ v) ∨
    ("repeated.min_items = 1").data = ("repeated.unique = true").data := by
  exact (repeated_branch_only_repeated_attrs ("string").data
    { str_min := some ['5'], num_min := some ['6'], rep_min := some ['1'] }
    ("repeated.min_items = 1").data (by decide)).1

/-- C5: in the non-repeated non-string branch the synthesized attributes
are the gte and lte attributes of the single numeric category selected
from the declared type name: double for double, float for float, int64
for a name ending in 64, and int32 otherwise. -/
theorem numeric_branch_category_selection :
    ∀ (ftype : Text) (c : Constraints) (mn mx : Text),
      ftype ≠ ("string").data →
      c.num_min = some mn → mn ≠ [] →
      c.num_max = some mx → mx ≠ [] →
      build_attrs ftype false c =
        (let cat :=
          if ftype = ("double").data then ("double").data
          else if ftype = ("float").data then ("float").data
          else if ("64").data.isSuffixOf ftype then ("int64").data
          else ("int32").data
        [cat ++ (".gte = ").data ++ mn, cat ++ (".lte = ").data ++ mx]) := by
  intro ftype c mn mx hs hmn hmnne hmx hmxne
  have hmn' : mn.isEmpty = false := by
    cases mn with
    | nil => exact absurd rfl hmnne
    | cons x xs => rfl
  have hmx' : mx.isEmpty = false := by
    cases mx with
    | nil => exact absurd rfl hmxne
    | cons x xs => rfl
  have hsb : (ftype == ("string").data) = false := beq_eq_false_iff_ne.2 hs
  simp only [build_attrs, Bool.false_eq_true, if_false, hsb, hmn, hmx, optAttr, hmn', hmx',
    beq_iff_eq]
  split
  · simp [List.append_assoc]
  · split
    · simp [List.append_assoc]
    · split
      · simp [List.append_assoc]
      · simp [List.append_assoc]

/-- Witness for C5 at an sfixed64 field, which selects int64. -/
theorem numeric_branch_category_selection_witness :
    build_attrs ("sfixed64").data false { num_min := some ['1'], num_max := some ['8'] } =
      [("int64.gte = 1").data, ("int64.lte = 8").data] := by
  have h := numeric_branch_category_selection ("sfixed64").data
    { num_min := some ['1'], num_max := some ['8'] } ['1'] ['8']
    (by decide) rfl (by decide) rfl (by decide)
  simpa using h

lemma replaceDD_no_paren : ∀ (t : Text), '(' ∉ t → replaceDD t = t
  | [], _ => rfl
  | [_], _ => rfl
  | c :: d :: r, h => by
    have hc : (c == '(') = false := by
      have hne : c ≠ '(' := fun hh => h (by simp [hh])
      exact beq_eq_false_iff_ne.2 hne
    have hr : '(' ∉ (d :: r) := fun hm => h (List.mem_cons_of_mem c hm)
    calc replaceDD (c :: d :: r)
        = if c == '(' && d == '(' then '(' :: replaceDD r
          else c :: replaceDD (d :: r) := rfl
      _ = c :: replaceDD (d :: r) := by rw [hc]; simp
      _ = c :: (d :: r) := by rw [replaceDD_no_paren (d :: r) hr]

lemma replaceDD_open2 (r : Text) (h : '(' ∉ r) :
    replaceDD (' ' :: '[' :: '(' :: '(' :: r) = ' ' :: '[' :: '(' :: r := by
  have step : replaceDD (' ' :: '[' :: '(' :: '(' :: r) = ' ' :: '[' :: '(' :: replaceDD r := rfl
  rw [step, replaceDD_no_paren r h]

lemma plainVal_no_paren {o : Option Text} {v : Text} (ho : plainVal o = true)
    (hv : o = some v) : '(' ∉ v := by
  subst hv
  simp only [plainVal, Bool.and_eq_true, List.all_eq_true] at ho
  intro hm
  have := ho.2 '(' hm
  simp [numChar] at this

lemma validC_fields {c : Constraints} (h : validC c = true) :
    plainVal c.str_min = true ∧ plainVal c.str_max = true ∧ plainVal c.num_min = true ∧
    plainVal c.num_max = true ∧ plainVal c.rep_min = true ∧ plainVal c.rep_max = true := by
  simp only [validC, Bool.and_eq_true] at h
  obtain ⟨⟨⟨⟨⟨h1, h2⟩, h3⟩, h4⟩, h5⟩, h6⟩ := h
  exact ⟨h1, h2, h3, h4, h5, h6⟩

lemma no_paren_attrs {ftype : Text} {rep : Bool} {c : Constraints} (hc : validC c = true) :
    ∀ a ∈ build_attrs ftype rep c, '(' ∉ a := by
  obtain ⟨h1, h2, h3, h4, h5, h6⟩ := validC_fields hc
  intro a ha hm
  have keyVal : ∀ (key v : Text), a = key ++ v → '(' ∉ key → '(' ∉ v → False := by
    intro key v hkv hk hv
    subst hkv
    rcases List.mem_append.1 hm with hx | hx
    · exact hk hx
    · exact hv hx
  simp only [build_attrs] at ha
  split at ha
  · rcases List.mem_append.1 ha with hx | hx
    · rcases List.mem_append.1 hx with hy | hy
      · obtain ⟨v, hv, _, rfl⟩ := optAttr_mem hy
        exact keyVal _ _ rfl (by decide) (plainVal_no_paren h5 hv)
      · obtain ⟨v, hv, _, rfl⟩ := optAttr_mem hy
        exact keyVal _ _ rfl (by decide) (plainVal_no_paren h6 hv)
    · split at hx
      · simp only [List.mem_singleton] at hx
        subst hx
        revert hm
        decide
      · simp at hx
  · split at ha
    · rcases List.mem_append.1 ha with hy | hy
      · obtain ⟨v, hv, _, rfl⟩ := optAttr_mem hy
        exact keyVal _ _ rfl (by decide) (plainVal_no_paren h1 hv)
      · obtain ⟨v, hv, _, rfl⟩ := optAttr_mem hy
        exact keyVal _ _ rfl (by decide) (plainVal_no_paren h2 hv)
    · have hcat : '(' ∉ (if ftype == ("double").data then ("double").data
          else if ftype == ("float").data then ("float").data
          else if ("64").data.isSuffixOf ftype then ("int64").data
          else ("int32").data) := by
        split
        · decide
        · split
          · decide
          · split
            · decide
            · decide
      rcases List.mem_append.1 ha with hy | hy
      · obtain ⟨v, hv, _, rfl⟩ := optAttr_mem hy
        refine keyVal _ _ rfl ?_ (plainVal_no_paren h3 hv)
        intro hx
        rcases List.mem_append.1 hx with hz | hz
        · exact hcat hz
        · revert hz
          decide
      · obtain ⟨v, hv, _, rfl⟩ := optAttr_mem hy
        refine keyVal _ _ rfl ?_ (plainVal_no_paren h4 hv)
        intro hx
        rcases List.mem_append.1 hx with hz | hz
        · exact hcat hz
        · revert hz
          decide

lemma formatAttrs_single {a : Text} (hnp : '(' ∉ a) :
    formatAttrs [a] = (" [(buf.validate.field).").data ++ a ++ (")]").data := by
  have hr : '(' ∉ (("buf.validate.field).").data ++ (a ++ (")]").data)) := by
    intro hm
    rcases List.mem_append.1 hm with hx | hx
    · revert hx
      decide
    · rcases List.mem_append.1 hx with hy | hy
      · exact hnp hy
      · revert hy
        decide
  have h1 : (" [((buf.validate.field).").data ++ a ++ (")]").data =
      ' ' :: '[' :: '(' :: '(' :: (("buf.validate.field).").data ++ (a ++ (")]").data)) := by
    rw [List.append_assoc]
    rfl
  have h2 : (" [(buf.validate.field).").data ++ a ++ (")]").data =
      ' ' :: '[' :: '(' :: (("buf.validate.field).").data ++ (a ++ (")]").data)) := by
    rw [List.append_assoc]
    rfl
  show replaceDD ((" [((buf.validate.field).").data ++ a ++ (")]").data) =
      (" [(buf.validate.field).").data ++ a ++ (")]").data
  rw [h1, replaceDD_open2 _ hr, h2]

lemma build_option_single {ftype : Text} {rep : Bool} {c : Constraints} {a : Text}
    (ha : build_attrs ftype rep c = [a]) (hnp : '(' ∉ a) :
    build_option ftype rep c = (" [(buf.validate.field).").data ++ a ++ (")]").data := by
  unfold build_option
  rw [ha, formatAttrs_single hnp]

/-- C6: one attribute is emitted inline in the bracketed form with the
full library prefix; two or more are emitted as the multi-line bracketed
comma-newline list with the prefix on every attribute; the minimum bound
attribute precedes the maximum bound attribute and repeated.unique comes
last among the repeated attributes. -/
theorem option_formatting_and_order :
    (∀ (ftype : Text) (rep : Bool) (c : Constraints) (a : Text), validC c = true →
      build_attrs ftype rep c = [a] →
      build_option ftype rep c = (" [(buf.validate.field).").data ++ a ++ (")]").data) ∧
    (∀ (ftype : Text) (rep : Bool) (c : Constraints) (a b : Text) (rest : List Text),
      build_attrs ftype rep c = a :: b :: rest →
      build_option ftype rep c =
        (" [\n  ").data ++
          joinSep ((",\n  ").data) ((a :: b :: rest).map (fun x => fieldPre ++ x)) ++
          ("\n]").data) ∧
    (∀ (ftype : Text) (c : Constraints) (v w : Text),
      c.rep_min = some v → v ≠ [] → c.rep_max = some w → w ≠ [] → c.unique = true →
      build_attrs ftype true c =
        [("repeated.min_items = ").data ++ v, ("repeated.max_items = ").data ++ w,
         ("repeated.unique = true").data]) ∧
    (∀ (c : Constraints) (v w : Text),
      c.str_min = some v → v ≠ [] → c.str_max = some w → w ≠ [] →
      build_attrs ("string").data false c =
        [("string.min_len = ").data ++ v, ("string.max_len = ").data ++ w]) := by
  have hisEmpty : ∀ (v : Text), v ≠ [] → v.isEmpty = false := by
    intro v hv
    cases v with
    | nil => exact absurd rfl hv
    | cons x xs => rfl
  refine ⟨?_, ?_, ?_, ?_⟩
  · intro ftype rep c a hc ha
    have hnp : '(' ∉ a := no_paren_attrs hc a (ha ▸ List.mem_singleton_self a)
    exact build_option_single ha hnp
  · intro ftype rep c a b rest hattrs
    unfold build_option
    rw [hattrs]
    rfl
  · intro ftype c v w hv hvne hw hwne hu
    simp [build_attrs, optAttr, hv, hw, hu, hisEmpty v hvne, hisEmpty w hwne]
  · intro c v w hv hvne hw hwne
    simp [build_attrs, optAttr, hv, hw, hisEmpty v hvne, hisEmpty w hwne]

/-- Witness for C6 at one-attribute and three-attribute constraints. -/
theorem option_formatting_and_order_witness :
    (build_option ("int32").data false { num_min := some ['2'] } =
      (" [(buf.validate.field).").data ++ ("int32.gte = 2").data ++ (")]").data) ∧
    (build_attrs ("string").data true
      { rep_min := some ['1'], rep_max := some ['9'], unique := true } =
      [("repeated.min_items = 1").data, ("repeated.max_items = 9").data,
       ("repeated.unique = true").data]) := by
  constructor
  · exact option_formatting_and_order.1 ("int32").data false { num_min := some ['2'] }
      ("int32.gte = 2").data (by decide) (by decide)
  · have h := option_formatting_and_order.2.2.1 ("string").data
      { rep_min := some ['1'], rep_max := some ['9'], unique := true }
      ['1'] ['9'] rfl (by decide) rfl (by decide) rfl
    simpa using h

/-- C7: when the selected branch yields no attributes the synthesizer
returns the empty text and the patch loop leaves the line unchanged; in
particular a constraint that only sets unique, on a non-repeated field of
any type, produces no annotation. -/
theorem empty_branch_no_rewrite :
    (∀ (ftype : Text) (rep : Bool) (c : Constraints),
      build_attrs ftype rep c = [] → build_option ftype rep c = []) ∧
    (∀ (mc : Text → Text → Option Constraints) (ctx : Option Text) (line : Text)
      (m : FieldM), fieldMatch line = some m →
      (∀ cname cons, ctx = some cname → mc cname m.fname = some cons →
        build_option m.ftype (isRep m) cons = []) →
      (patchLine mc ctx line).line = line ∧ (patchLine mc ctx line).patched = false) ∧
    (∀ ftype : Text, build_option ftype false { unique := true } = []) := by
  refine ⟨?_, ?_, ?_⟩
  · intro ftype rep c h
    unfold build_option
    rw [h]
    rfl
  · intro mc ctx line m hm hopt
    unfold patchLine
    cases hmsg : msgMatch line with
    | some nm => constructor <;> trivial
    | none =>
      cases ctx with
      | none => constructor <;> trivial
      | some cname =>
        rw [hm]
        by_cases hmk : hasSub markerText m.tail = true
        · simp only [hmk, if_true]
          constructor <;> trivial
        · simp only [Bool.not_eq_true] at hmk
          simp only [hmk, Bool.false_eq_true, if_false]
          cases hmc : mc cname m.fname with
          | none => constructor <;> trivial
          | some cons =>
            by_cases hpb : cons.pyBool = true
            · simp only [hpb, Bool.not_true, Bool.false_eq_true, if_false]
              have he : build_option m.ftype (isRep m) cons = [] :=
                hopt cname cons rfl hmc
              simp only [he, List.isEmpty_nil, if_true]
              constructor <;> trivial
            · simp only [Bool.not_eq_true] at hpb
              simp only [hpb, Bool.not_false, if_true]
              constructor <;> trivial
  · intro ftype
    have hattrs : build_attrs ftype false { unique := true } = [] := by
      simp [build_attrs, optAttr]
    unfold build_option
    rw [hattrs]
    rfl

/-- Witness for C7 at a unique-only constraint on a plain string field. -/
theorem empty_branch_no_rewrite_witness :
    (build_option ("bool").data false {} = []) ∧
    ((patchLine (fun _ _ => some { unique := true }) (some ['M'])
        ("  string content = 1;").data).line = ("  string content = 1;").data) := by
  constructor
  · exact empty_branch_no_rewrite.1 ("bool").data false {} (by decide)
  · exact (empty_branch_no_rewrite.2.1 (fun _ _ => some { unique := true }) (some ['M'])
      ("  string content = 1;").data ⟨none, ("string").data, ("content").data, ['1'], []⟩
      (by decide) (fun cname cons _ h2 => by
        injection h2 with h3
        subst h3
        decide)).1

lemma rstripSemi_decomp (t : Text) : ∃ k, t = rstripSemi t ++ List.replicate k ';' := by
  have hall : ∀ b ∈ t.reverse.takeWhile (fun c => c == ';'), b = ';' := by
    intro b hb
    simpa using List.mem_takeWhile_imp hb
  obtain ⟨n, hrep⟩ : ∃ n, t.reverse.takeWhile (fun c => c == ';') = List.replicate n ';' :=
    ⟨_, List.eq_replicate_of_mem hall⟩
  refine ⟨n, ?_⟩
  calc t = t.reverse.reverse := (List.reverse_reverse t).symm
    _ = (t.reverse.takeWhile (fun c => c == ';') ++
          t.reverse.dropWhile (fun c => c == ';')).reverse := by
        rw [List.takeWhile_append_dropWhile]
    _ = (t.reverse.dropWhile (fun c => c == ';')).reverse ++
          (t.reverse.takeWhile (fun c => c == ';')).reverse := by
        rw [List.reverse_append]
    _ = rstripSemi t ++ (t.reverse.takeWhile (fun c => c == ';')).reverse := rfl
    _ = rstripSemi t ++ List.replicate n ';' := by
        rw [hrep, List.reverse_replicate]

/-- C10: every line the patcher rewrites becomes the original line with
its trailing semicolons removed, followed by the non-empty synthesized
option text and a single semicolon; the original line is the kept head
followed only by semicolons. -/
theorem rewrite_preserves_line_head :
    ∀ (mc : Text → Text → Option Constraints) (ctx : Option Text) (line : Text),
      (patchLine mc ctx line).patched = true →
      ∃ opt k, opt ≠ [] ∧
        (patchLine mc ctx line).line = rstripSemi line ++ opt ++ [';'] ∧
        line = rstripSemi line ++ List.replicate k ';' := by
  intro mc ctx line hp
  obtain ⟨k, hk⟩ := rstripSemi_decomp line
  unfold patchLine at hp ⊢
  cases hmsg : msgMatch line with
  | some nm =>
    rw [hmsg] at hp
    simp at hp
  | none =>
    rw [hmsg] at hp
    cases ctx with
    | none => simp at hp
    | some cname =>
      cases hf : fieldMatch line with
      | none =>
        rw [hf] at hp
        simp at hp
      | some m =>
        rw [hf] at hp
        dsimp only at hp ⊢
        by_cases hmk : hasSub markerText m.tail = true
        · rw [hmk] at hp
          simp at hp
        · simp only [Bool.not_eq_true] at hmk
          simp only [hmk, Bool.false_eq_true, if_false] at hp ⊢
          cases hmc : mc cname m.fname with
          | none =>
            rw [hmc] at hp
            simp at hp
          | some cons =>
            rw [hmc] at hp
            dsimp only at hp ⊢
            by_cases hpb : cons.pyBool = true
            · simp only [hpb, Bool.not_true, Bool.false_eq_true, if_false] at hp ⊢
              by_cases he : (build_option m.ftype (isRep m) cons).isEmpty = true
              · simp only [he, if_true] at hp
                simp at hp
              · simp only [Bool.not_eq_true] at he
                simp only [he, Bool.false_eq_true, if_false]
                refine ⟨build_option m.ftype (isRep m) cons, k, ?_, rfl, hk⟩
                intro hnil
                rw [hnil] at he
                simp at he
            · simp only [Bool.not_eq_true] at hpb
              simp only [hpb, Bool.not_false, if_true] at hp
              simp at hp

/-- Witness for C10 at a concrete rewritten line. -/
theorem rewrite_preserves_line_head_witness :
    ∃ opt k, opt ≠ [] ∧
      (patchLine (fun _ _ => some { str_min := some ['1'] }) (some ['M'])
          ("  string content = 1;").data).line =
        rstripSemi ("  string content = 1;").data ++ opt ++ [';'] ∧
      ("  string content = 1;").data =
        rstripSemi ("  string content = 1;").data ++ List.replicate k ';' := by
  exact rewrite_preserves_line_head (fun _ _ => some { str_min := some ['1'] })
    (some ['M']) ("  string content = 1;").data (by decide)

lemma countP_filter_not (p : Text → Bool) (l : List Text) :
    (l.filter (fun x => !p x)).countP p = 0 := by
  rw [List.countP_eq_zero]
  intro a ha
  have hpa := (List.mem_filter.1 ha).2
  simp only [Bool.not_eq_true'] at hpa
  simp [hpa]

lemma importLiteral_fullmatch : importFullmatch importLiteral = true := by decide

lemma dedupe_count (ls : List Text) (h : ls.any importFullmatch = true) :
    (dedupeImports ls).countP (fun l => importFullmatch l) = 1 := by
  induction ls with
  | nil => simp at h
  | cons l ls ih =>
    by_cases hl : importFullmatch l = true
    · simp only [dedupeImports, hl, if_true]
      rw [List.countP_cons]
      simp [importLiteral_fullmatch, countP_filter_not]
    · have hl' : importFullmatch l = false := by simpa using hl
      have h' : ls.any importFullmatch = true := by
        simp only [List.any_cons, hl', Bool.false_or] at h
        exact h
      simp only [dedupeImports, hl', Bool.false_eq_true, if_false]
      rw [List.countP_cons]
      simp [hl', ih h']

lemma dedupe_append (pre suf : List Text) (l : Text)
    (hpre : ∀ x ∈ pre, importFullmatch x = false) (hl : importFullmatch l = true) :
    dedupeImports (pre ++ l :: suf) =
      pre ++ importLiteral :: suf.filter (fun x => !importFullmatch x) := by
  induction pre with
  | nil =>
    simp only [List.nil_append]
    simp [dedupeImports, hl]
  | cons p ps ih =>
    have hp : importFullmatch p = false := hpre p (List.mem_cons_self p ps)
    have ih' := ih (fun x hx => hpre x (List.mem_cons_of_mem p hx))
    simp only [List.cons_append, dedupeImports, hp, Bool.false_eq_true, if_false]
    rw [List.append_eq, ih']

lemma normaliseImports_of_any {dirty : Bool} {ls : List Text}
    (h : ls.any importFullmatch = true) :
    normaliseImports dirty ls = dedupeImports ls := by
  unfold normaliseImports
  rw [h]
  rfl

/-- C1 (amended): a field line that carries the library marker inside its
matched tail, the text between the field number and the first semicolon,
is never rewritten again; and whenever at least one import line exists,
normalisation leaves exactly one import line, so no second one is added. -/
theorem marker_guard_and_import_dedupe :
    (∀ (mc : Text → Text → Option Constraints) (ctx : Option Text) (line : Text)
      (m : FieldM), fieldMatch line = some m → hasSub markerText m.tail = true →
      (patchLine mc ctx line).line = line ∧ (patchLine mc ctx line).patched = false) ∧
    (∀ (dirty : Bool) (ls : List Text), ls.any importFullmatch = true →
      (normaliseImports dirty ls).countP (fun l => importFullmatch l) = 1) := by
  constructor
  · intro mc ctx line m hm hmk
    unfold patchLine
    cases hmsg : msgMatch line with
    | some nm => constructor <;> trivial
    | none =>
      cases ctx with
      | none => constructor <;> trivial
      | some cname =>
        rw [hm]
        dsimp only
        rw [hmk]
        constructor <;> trivial
  · intro dirty ls h
    rw [normaliseImports_of_any h]
    exact dedupe_count ls h

/-- Witness for C1 (amended) at a line rewritten by the tool itself and a
file with a duplicated import. -/
theorem marker_guard_and_import_dedupe_witness :
    ((patchLine (fun _ _ => some { str_min := some ['1'] }) (some ['M'])
        ("  string content = 1 [(buf.validate.field).string.min_len = 1)];").data).line =
      ("  string content = 1 [(buf.validate.field).string.min_len = 1)];").data) ∧
    ((normaliseImports false [importLiteral, importLiteral]).countP
        (fun l => importFullmatch l) = 1) := by
  constructor
  · exact (marker_guard_and_import_dedupe.1 (fun _ _ => some { str_min := some ['1'] })
      (some ['M'])
      ("  string content = 1 [(buf.validate.field).string.min_len = 1)];").data
      ⟨none, ("string").data, ("content").data, ['1'],
        (" [(buf.validate.field).string.min_len = 1)]").data⟩ (by decide) (by decide)).1
  · exact marker_guard_and_import_dedupe.2 false [importLiteral, importLiteral] (by decide)

/-- Member map used by the C1 counterexample. -/
def mcCx : Text → Text → Option Constraints := fun c n =>
  if c == ['M'] && n == ("content").data then some { str_min := some ['1'] } else none

/-- Target file of the C1 counterexample: the field line carries a comment
after its statement terminator. -/
def fileCx : List Text :=
  [("syntax = \"proto3\";").data,
   ("message M \x7b").data,
   ("  string content = 1; // note").data,
   ("\x7d").data]

/-- C1 counterexample: after one run the patched field line carries the
marker, yet a second run rewrites that line again and the file is not
byte-identical, because the marker sits after the first semicolon and so
outside the matched tail that the guard inspects. -/
theorem idempotence_counterexample :
    hasSub markerText ((patchFile mcCx fileCx).getD 3 []) = true ∧
    (patchFile mcCx (patchFile mcCx fileCx)).getD 3 [] ≠ (patchFile mcCx fileCx).getD 3 [] ∧
    patchFile mcCx (patchFile mcCx fileCx) ≠ patchFile mcCx fileCx := by decide

/-- C4: after normalisation at most one import line remains; with at
least one pre-existing occurrence only the first is kept, replaced by the
canonical literal in place, and all later occurrences are deleted; with
none, a dirty file receives exactly one, at index two when the first two
lines start with the syntax and package declarations and at index one
otherwise. -/
theorem import_normalisation_shape :
    (∀ (dirty : Bool) (ls : List Text),
      (normaliseImports dirty ls).countP (fun l => importFullmatch l) ≤ 1) ∧
    (∀ (dirty : Bool) (pre : List Text) (l : Text) (suf : List Text),
      (∀ x ∈ pre, importFullmatch x = false) → importFullmatch l = true →
      normaliseImports dirty (pre ++ l :: suf) =
        pre ++ importLiteral :: suf.filter (fun x => !importFullmatch x)) ∧
    (∀ (a b : Text) (rest : List Text),
      (a :: b :: rest).any importFullmatch = false →
      ("syntax").data.isPrefixOf a = true → ("package").data.isPrefixOf b = true →
      normaliseImports true (a :: b :: rest) = a :: b :: importLiteral :: rest) ∧
    (∀ ls : List Text, ls.any importFullmatch = false →
      (∀ a b rest, ls = a :: b :: rest →
        ¬(("syntax").data.isPrefixOf a = true ∧ ("package").data.isPrefixOf b = true)) →
      normaliseImports true ls = ls.take 1 ++ importLiteral :: ls.drop 1) := by
  refine ⟨?_, ?_, ?_, ?_⟩
  · intro dirty ls
    by_cases hany : ls.any importFullmatch = true
    · rw [normaliseImports_of_any hany, dedupe_count ls hany]
    · have hany' : ls.any importFullmatch = false := by simpa using hany
      have h0 : ls.countP (fun l => importFullmatch l) = 0 := by
        rw [List.countP_eq_zero]
        intro a ha
        exact fun hpa => (List.any_eq_false.1 hany' a ha) hpa
      unfold normaliseImports
      rw [hany']
      simp only [Bool.false_eq_true, if_false]
      cases dirty with
      | false => simp [h0]
      | true =>
        have hsplit : ∀ n : Nat, (insertAtPos n importLiteral ls).countP
            (fun l => importFullmatch l) = 1 := by
          intro n
          unfold insertAtPos
          rw [List.countP_append, List.countP_cons]
          have h2 : (ls.take n).countP (fun l => importFullmatch l) +
              (ls.drop n).countP (fun l => importFullmatch l) = 0 := by
            rw [← List.countP_append, List.take_append_drop, h0]
          have h3 : (ls.take n).countP (fun l => importFullmatch l) = 0 ∧
              (ls.drop n).countP (fun l => importFullmatch l) = 0 := by omega
          rw [h3.1, h3.2]
          simp [importLiteral_fullmatch]
        simp only [if_true]
        exact Nat.le_of_eq (hsplit _)
  · intro dirty pre l suf hpre hl
    have hany : (pre ++ l :: suf).any importFullmatch = true :=
      List.any_eq_true.2 ⟨l, List.mem_append.2 (Or.inr (List.mem_cons_self l suf)), hl⟩
    rw [normaliseImports_of_any hany]
    exact dedupe_append pre suf l hpre hl
  · intro a b rest hany ha hb
    unfold normaliseImports
    rw [hany]
    simp only [Bool.false_eq_true, if_false]
    dsimp only
    rw [ha, hb]
    simp [insertAtPos]
  · intro ls hany hhdr
    unfold normaliseImports
    rw [hany]
    simp only [Bool.false_eq_true, if_false, if_true]
    cases ls with
    | nil => rfl
    | cons a tl =>
      cases tl with
      | nil => rfl
      | cons b rest =>
        have hno := hhdr a b rest rfl
        have hfalse : (("syntax").data.isPrefixOf a && ("package").data.isPrefixOf b) = false := by
          cases hsa : ("syntax").data.isPrefixOf a with
          | false => rfl
          | true =>
            cases hpb : ("package").data.isPrefixOf b with
            | false => rfl
            | true => exact absurd ⟨hsa, hpb⟩ hno
        dsimp only
        rw [hfalse]
        rfl

/-- Witness for C4 at files with duplicated, header-positioned, and
missing imports. -/
theorem import_normalisation_shape_witness :
    ((normaliseImports true [importLiteral, ['x'], importLiteral]).countP
        (fun l => importFullmatch l) ≤ 1) ∧
    (normaliseImports false ([['a']] ++ importLiteral :: [importLiteral, ['b']]) =
      [['a']] ++ importLiteral :: [['b']]) ∧
    (normaliseImports true [("syntax = \"proto3\";").data, ("package demo;").data] =
      [("syntax = \"proto3\";").data, ("package demo;").data, importLiteral]) ∧
    (normaliseImports true [("message M \x7b").data, ("\x7d").data] =
      [("message M \x7b").data, importLiteral, ("\x7d").data]) := by
  refine ⟨import_normalisation_shape.1 true [importLiteral, ['x'], importLiteral], ?_, ?_, ?_⟩
  · have h := import_normalisation_shape.2.1 false [['a']] importLiteral [importLiteral, ['b']]
      (by decide) (by decide)
    rw [h]
    decide
  · exact import_normalisation_shape.2.2.1 ("syntax = \"proto3\";").data
      ("package demo;").data [] (by decide) (by decide) (by decide)
  · have h := import_normalisation_shape.2.2.2 [("message M \x7b").data, ("\x7d").data]
      (by decide) (fun a b rest heq => by
        injection heq with h1 h2
        injection h2 with h3 h4
        subst h1
        subst h3
        decide)
    rw [h]
    decide

lemma saHere_consumed {prev : Option Char} {t consumed nm r3 : Text}
    (h : saHere prev t = some (consumed, nm, r3)) : t = consumed ++ r3 := by
  unfold saHere at h
  dsimp only at h
  split at h
  · split at h
    · exact Option.noConfusion h
    · split at h
      · exact Option.noConfusion h
      · injection h with h1
        injection h1 with hc h2
        injection h2 with hn hr
        subst hc
        subst hr
        have h1 : (t.drop 6).takeWhile isSpaceChar ++ (t.drop 6).dropWhile isSpaceChar =
            t.drop 6 := List.takeWhile_append_dropWhile isSpaceChar (t.drop 6)
        have h2 : ((t.drop 6).dropWhile isSpaceChar).takeWhile isWordChar ++
            ((t.drop 6).dropWhile isSpaceChar).dropWhile isWordChar =
            (t.drop 6).dropWhile isSpaceChar :=
          List.takeWhile_append_dropWhile isWordChar ((t.drop 6).dropWhile isSpaceChar)
        symm
        calc (t.take 6 ++ (t.drop 6).takeWhile isSpaceChar ++
                ((t.drop 6).dropWhile isSpaceChar).takeWhile isWordChar) ++
                ((t.drop 6).dropWhile isSpaceChar).dropWhile isWordChar
            = t.take 6 ++ ((t.drop 6).takeWhile isSpaceChar ++
                (((t.drop 6).dropWhile isSpaceChar).takeWhile isWordChar ++
                 ((t.drop 6).dropWhile isSpaceChar).dropWhile isWordChar)) := by
              simp [List.append_assoc]
          _ = t.take 6 ++ ((t.drop 6).takeWhile isSpaceChar ++
                (t.drop 6).dropWhile isSpaceChar) := by rw [h2]
          _ = t.take 6 ++ t.drop 6 := by rw [h1]
          _ = t := List.take_append_drop 6 t
  · exact Option.noConfusion h

lemma saScan_pre : ∀ (fuel : Nat) (pre : Text) (prev : Option Char) (t : Text)
    (p nm : Text), (p, nm) ∈ saScan fuel pre prev t →
    ∃ mid suf, p = pre ++ mid ∧ t = mid ++ suf := by
  intro fuel
  induction fuel with
  | zero =>
    intro pre prev t p nm h
    simp [saScan] at h
  | succ n ih =>
    intro pre prev t p nm h
    cases t with
    | nil => simp [saScan] at h
    | cons c rest =>
      simp only [saScan] at h
      cases hsa : saHere prev (c :: rest) with
      | some trip =>
        obtain ⟨consumed, nm2, r3⟩ := trip
        rw [hsa] at h
        dsimp only at h
        rcases List.mem_cons.1 h with heq | hmem
        · injection heq with e1 e2
          refine ⟨[], c :: rest, ?_, rfl⟩
          rw [e1]
          simp
        · obtain ⟨mid, suf, hp, ht⟩ := ih (pre ++ consumed) _ r3 p nm hmem
          refine ⟨consumed ++ mid, suf, ?_, ?_⟩
          · rw [hp, List.append_assoc]
          · rw [saHere_consumed hsa, ht, List.append_assoc]
      | none =>
        rw [hsa] at h
        dsimp only at h
        obtain ⟨mid, suf, hp, ht⟩ := ih (pre ++ [c]) (some c) rest p nm h
        refine ⟨c :: mid, suf, ?_, ?_⟩
        · rw [hp]
          simp
        · rw [List.cons_append, ← ht]

/-- C8: every string-alias entry of pass 1 stores the trait extraction
over the whole file text before the declaration, from the file start; on
a concrete file a later alias declaration picks up a length bound from a
trait that precedes an unrelated earlier alias declaration. -/
theorem alias_window_from_file_start :
    (∀ (txt pre nm : Text), (pre, nm) ∈ stringAliasEntries txt →
      (nm, gather_constraints pre) ∈ aliasMapS txt ∧ ∃ suf, txt = pre ++ suf) ∧
    (lookupLast (aliasMapS ("@length(min: 3)\nstring A\n\nstring B\n").data) ['B'] =
      some { str_min := some ['3'], rep_min := some ['3'] } ∧
     (("@length(min: 3)\nstring A\n\n").data, ['B']) ∈
        stringAliasEntries ("@length(min: 3)\nstring A\n\nstring B\n").data) := by
  constructor
  · intro txt pre nm h
    constructor
    · exact List.mem_map.2 ⟨(pre, nm), h, rfl⟩
    · obtain ⟨mid, suf, hp, ht⟩ := saScan_pre (txt.length + 1) [] none txt pre nm h
      refine ⟨suf, ?_⟩
      rw [hp]
      simpa using ht
  · exact ⟨by decide, by decide⟩

/-- Witness for C8 at a single-alias file. -/
theorem alias_window_from_file_start_witness :
    ((['X'], gather_constraints []) ∈ aliasMapS ("string X").data) ∧
    (∃ suf, ("string X").data = [] ++ suf) := by
  exact alias_window_from_file_start.1 ("string X").data [] ['X'] (by decide)

/-- Witness for C9 at a concrete span, pair of constraints, alias map and
member resolution. -/
theorem extractor_str_rep_equal_witness :
    eqSR (gather_constraints ("@length(min: 1, max: 9)").data) ∧
    eqSR (Constraints.merge { str_min := some ['1'], rep_min := some ['1'] }
      { str_max := some ['2'], rep_max := some ['2'] }) ∧
    eqSR (resolveMember (some { str_min := some ['3'], rep_min := some ['3'] }) {}) := by
  refine ⟨extractor_str_rep_equal.1 _, ?_, ?_⟩
  · exact extractor_str_rep_equal.2.1 _ _ (by decide) (by decide)
  · exact extractor_str_rep_equal.2.2.2 _ _ (fun x hx => by
      cases hx
      decide) (by decide)

